import Mathlib

/-
  Verification development for the banners_rotator repository.

  The definitions below are a shallow embedding of src/storage.rs:
  Banner, CumulativeWeights, IdxProjection and InMemoryStorage are
  translated field by field, and every operation mirrors one Rust
  function.  Machine integers (u32 and u64 counters) are modelled as
  Nat: the single subtraction in the code is guarded by a positivity
  check, and the u64 weight accumulator cannot overflow for any input
  the claims quantify over, so no wrap-around modelling is needed.

  Randomness: the Rust code calls thread_rng().gen_range(0, max + 1).
  Every operation that draws takes the raw random value as an explicit
  argument rnd and reduces it as rnd % (max + 1), so that the set of
  reachable draws is exactly the closed interval [0, max].

  HashSet iteration: filter_by_categories collects candidates into a
  HashSet whose iteration order is unspecified.  The embedding keeps
  the collected stream as a list and makes the iteration order an
  explicit argument ord; the predicate IsHashOrder states that ord is
  a duplicate-free enumeration of the collected elements, which is
  exactly what iterating the HashSet yields (in some order).
-/

namespace Rotator

abbrev Category := String

/-- String constants from storage.rs (source names HTML_PREFIX and HTML_SUFFIX). -/
def HTML_HEAD : String := "<html><body><img src=\""

/-- Closing part of the markup wrapper. -/
def HTML_TAIL : String := "\"/></body></html>"

/-- Validation errors returned by add_banner (storage.rs, enum StoreError). -/
inductive StoreError where
  | IllegalUrl : StoreError
  | IllegalShowsAmount : StoreError
  | EmptyCategories : StoreError
deriving Repr, DecidableEq

/-- One inventory item (storage.rs, struct Banner).  shows_left is a plain
integer field in the source (u32), modelled as Nat. -/
structure Banner where
  url : String
  shows_amount : Nat
  shows_left : Nat
deriving Repr, DecidableEq

/-- Banner constructor (storage.rs, Banner::new): remaining starts at the budget. -/
def Banner.new (url : String) (shows_amount : Nat) : Banner :=
  { url := url, shows_amount := shows_amount, shows_left := shows_amount }

/-- Default banner used to model out-of-bounds indexing (the Rust code would
panic there; the paths proved about never reach it). -/
def bannerOOB : Banner := Banner.new "" 0

/-- Eligibility check (storage.rs, Banner::can_show). -/
def Banner.can_show (b : Banner) : Bool := decide (0 < b.shows_left)

/-- Depletion plus rendering (storage.rs, Banner::show_html): fail when the
counter is zero, otherwise decrement and return the wrapped url. -/
def Banner.show_html (b : Banner) : Option String × Banner :=
  if !b.can_show then (none, b)
  else (some (HTML_HEAD ++ b.url ++ HTML_TAIL),
        { b with shows_left := b.shows_left - 1 })

/-- Index translation of a table position (storage.rs, enum IdxProjection). -/
inductive IdxProjection where
  | AsIs : IdxProjection
  | Specific : List Nat → IdxProjection
deriving Repr, DecidableEq

/-- Translate a table position to a banner position (storage.rs,
IdxProjection::project).  Out-of-bounds lookup in the Specific case would
panic in Rust; modelled with a default of 0, and the proofs establish the
bound before using it. -/
def IdxProjection.project (p : IdxProjection) (idx : Nat) : Nat :=
  match p with
  | .AsIs => idx
  | .Specific l => l.getD idx 0

/-- Prefix-sum table with its projection (storage.rs, struct CumulativeWeights). -/
structure CumulativeWeights where
  weights : List Nat
  idx_projection : IdxProjection
deriving Repr, DecidableEq

/-- Empty table with identity projection (CumulativeWeights::new). -/
def CumulativeWeights.new : CumulativeWeights :=
  { weights := [], idx_projection := .AsIs }

/-- Empty table with an explicit projection list (CumulativeWeights::with_projection). -/
def CumulativeWeights.with_projection : CumulativeWeights :=
  { weights := [], idx_projection := .Specific [] }

/-- Push one weight: append last prefix sum plus the new weight
(CumulativeWeights::add_weight). -/
def CumulativeWeights.add_weight (cw : CumulativeWeights) (weight : Nat) : CumulativeWeights :=
  { cw with weights := cw.weights ++ [cw.weights.getLast?.getD 0 + weight] }

/-- Push one weight together with its banner position
(CumulativeWeights::add_weight_for_idx).  The AsIs case panics in the
source and is unreachable on the paths used by the store; modelled as a
no-op there. -/
def CumulativeWeights.add_weight_for_idx (cw : CumulativeWeights) (weight : Nat) (idx : Nat) :
    CumulativeWeights :=
  match cw.idx_projection with
  | .Specific p =>
      CumulativeWeights.add_weight { cw with idx_projection := .Specific (p ++ [idx]) } weight
  | .AsIs => cw

/-- The loop inside Rust slice::binary_search: left and right delimit the
still unsearched region; returns inr mid on an exact match and inl left
with the insertion point otherwise.  The loop is embedded structurally on
an explicit iteration budget: every pass strictly shrinks the interval, so
any budget at least the interval width reproduces the unbounded Rust loop
exactly (bsLoop_spec is proved under that bound, and binary_search passes
the list length, which bounds the initial width). -/
def bsLoop (xs : List Nat) (t : Nat) : Nat → Nat → Nat → Nat ⊕ Nat
  | 0, left, _ => Sum.inl left
  | fuel + 1, left, right =>
    if left < right then
      if xs.getD (left + (right - left) / 2) 0 < t then
        bsLoop xs t fuel (left + (right - left) / 2 + 1) right
      else if t < xs.getD (left + (right - left) / 2) 0 then
        bsLoop xs t fuel left (left + (right - left) / 2)
      else Sum.inr (left + (right - left) / 2)
    else Sum.inl left

/-- Collapse of the search result, as the match in select_uniformly does. -/
def bsResolve : Nat ⊕ Nat → Nat
  | .inl i => i
  | .inr i => i

/-- Entry point of the search (slice::binary_search over the whole list). -/
def binary_search (xs : List Nat) (t : Nat) : Nat ⊕ Nat :=
  bsLoop xs t xs.length 0 xs.length

/-- Weighted draw (storage.rs, CumulativeWeights::select_uniformly).  rnd is
the raw value produced by the generator; gen_range(0, max + 1) is modelled
as rnd % (max + 1). -/
def CumulativeWeights.select_uniformly (cw : CumulativeWeights) (rnd : Nat) : Option Nat :=
  if cw.weights.isEmpty then none
  else
    let idx :=
      if cw.weights.length = 1 then 0
      else
        let mx := cw.weights.getLast?.getD 0
        let r := rnd % (mx + 1)
        match binary_search cw.weights r with
        | .inr exact_idx => exact_idx
        | .inl insert_idx => insert_idx
    some (cw.idx_projection.project idx)

/-- The in-memory store (storage.rs, struct InMemoryStorage).  The category
index HashMap is modelled as an association list: the map is only ever read
through get, for which the representation is equivalent. -/
structure InMemoryStorage where
  banners : List Banner
  index : List (Category × List Nat)
  cumulative_weights : CumulativeWeights
deriving Repr, DecidableEq

/-- Fresh empty store (InMemoryStorage::new). -/
def InMemoryStorage.new : InMemoryStorage :=
  { banners := [], index := [], cumulative_weights := CumulativeWeights.new }

/-- One entry-update of the category index: push the banner position onto
the existing list for the key, or insert a fresh singleton list (the
entry().and_modify(push).or_insert(vec) call in add_banner). -/
def indexAdd (m : List (Category × List Nat)) (c : Category) (i : Nat) :
    List (Category × List Nat) :=
  match m with
  | [] => [(c, [i])]
  | (k, l) :: t => if k = c then (k, l ++ [i]) :: t else (k, l) :: indexAdd t c i

/-- Insertion (storage.rs, InMemoryStorage::add_banner).  The Rust method
mutates through a mut reference and returns Result of unit; modelled as a
pair of the result and the post-state, so that the no-mutation-on-error
behaviour is visible. -/
def InMemoryStorage.add_banner (s : InMemoryStorage) (url : String) (shows_amount : Nat)
    (categories : List Category) : Except StoreError Unit × InMemoryStorage :=
  if url.isEmpty then (.error .IllegalUrl, s)
  else if shows_amount = 0 then (.error .IllegalShowsAmount, s)
  else if categories.isEmpty then (.error .EmptyCategories, s)
  else
    let banner := Banner.new url shows_amount
    let banner_idx := s.banners.length
    (.ok (),
      { banners := s.banners ++ [banner]
        index := categories.foldl (fun m c => indexAdd m c banner_idx) s.index
        cumulative_weights := s.cumulative_weights.add_weight shows_amount })

/-- The stream of candidate positions collected in filter_by_categories
before it is poured into the HashSet: per requested key, the index list if
the key is known, flattened, keeping only banners that can still show. -/
def InMemoryStorage.candidate_stream (s : InMemoryStorage) (categories : List Category) :
    List Nat :=
  ((categories.filterMap (fun c => List.lookup c s.index)).flatten).filter
    (fun idx => (s.banners.getD idx bannerOOB).can_show)

/-- Result of the category filter (storage.rs, enum FilterResult).  Slice
carries the collected stream; the HashSet it is poured into holds exactly
the distinct elements of that stream. -/
inductive FilterResult where
  | All : FilterResult
  | Slice : List Nat → FilterResult
deriving Repr, DecidableEq

/-- Category filtering (storage.rs, InMemoryStorage::filter_by_categories):
an empty request selects the whole inventory. -/
def InMemoryStorage.filter_by_categories (s : InMemoryStorage) (categories : List Category) :
    FilterResult :=
  if categories.isEmpty then .All
  else .Slice (s.candidate_stream categories)

/-- ord is a possible iteration order of the HashSet holding the distinct
elements of stream: a permutation of the deduplicated stream. -/
def IsHashOrder (stream ord : List Nat) : Prop :=
  ord.Perm stream.dedup

instance (stream ord : List Nat) : Decidable (IsHashOrder stream ord) :=
  inferInstanceAs (Decidable (ord.Perm stream.dedup))

/-- Ephemeral weighted table over the filtered candidates (storage.rs,
InMemoryStorage::get_cumulative_weights); ord is the iteration order of
the HashSet. -/
def InMemoryStorage.get_cumulative_weights (s : InMemoryStorage) (ord : List Nat) :
    CumulativeWeights :=
  ord.foldl
    (fun w idx =>
      w.add_weight_for_idx (s.banners.getD idx bannerOOB).shows_amount idx)
    CumulativeWeights.with_projection

/-- Draw and deplete (storage.rs, InMemoryStorage::show_html): select a
position, fetch the banner, attempt its depletion and write it back. -/
def InMemoryStorage.show_html (s : InMemoryStorage) (w : CumulativeWeights) (rnd : Nat) :
    Option String × InMemoryStorage :=
  match w.select_uniformly rnd with
  | none => (none, s)
  | some idx =>
    match s.banners.get? idx with
    | none => (none, s)
    | some b =>
      let r := b.show_html
      (r.1, { s with banners := s.banners.set idx r.2 })

/-- Draw over the global table (storage.rs, InMemoryStorage::show_html_select_all). -/
def InMemoryStorage.show_html_select_all (s : InMemoryStorage) (rnd : Nat) :
    Option String × InMemoryStorage :=
  s.show_html s.cumulative_weights rnd

/-- Selection entry point (storage.rs, InMemoryStorage::get_banner_html).
ord is the HashSet iteration order used if the filtered path is taken;
rnd is the raw random draw. -/
def InMemoryStorage.get_banner_html (s : InMemoryStorage) (categories : List Category)
    (ord : List Nat) (rnd : Nat) : Option String × InMemoryStorage :=
  match s.filter_by_categories categories with
  | .All => s.show_html_select_all rnd
  | .Slice _ => s.show_html (s.get_cumulative_weights ord) rnd

/-- The iteration order argument is acceptable for this call: irrelevant
when the request is empty (global path), otherwise a hash order of the
collected stream. -/
def ordOk (s : InMemoryStorage) (categories : List Category) (ord : List Nat) : Prop :=
  categories = [] ∨ IsHashOrder (s.candidate_stream categories) ord

instance (s : InMemoryStorage) (categories : List Category) (ord : List Nat) :
    Decidable (ordOk s categories ord) :=
  inferInstanceAs (Decidable (_ ∨ _))

/-- Run a sequence of selection calls, each with its own iteration order
and random draw, collecting the outputs and threading the state. -/
def serveSeq (s : InMemoryStorage) (categories : List Category) :
    List (List Nat × Nat) → List (Option String) × InMemoryStorage
  | [] => ([], s)
  | (ord, rnd) :: rest =>
    let step := s.get_banner_html categories ord rnd
    let tail := serveSeq step.2 categories rest
    (step.1 :: tail.1, tail.2)

/-- Every step of the sequence uses an acceptable iteration order for the
state it runs in. -/
def validSteps : InMemoryStorage → List Category → List (List Nat × Nat) → Bool
  | _, _, [] => true
  | s, categories, (ord, rnd) :: rest =>
    decide (ordOk s categories ord) &&
      validSteps (s.get_banner_html categories ord rnd).2 categories rest

/-- Prefix sums of a weight list starting from a given accumulator; the
shape produced by repeated add_weight calls. -/
def cumFrom (acc : Nat) : List Nat → List Nat
  | [] => []
  | w :: t => (acc + w) :: cumFrom (acc + w) t

/-- Table built by feeding a list of weights through add_weight, as
add_banner does for the global table. -/
def buildTable (ws : List Nat) : CumulativeWeights :=
  ws.foldl CumulativeWeights.add_weight CumulativeWeights.new

/-- Projection list carried by a table (empty for the identity projection). -/
def CumulativeWeights.projList (cw : CumulativeWeights) : List Nat :=
  match cw.idx_projection with
  | .AsIs => []
  | .Specific p => p

/-- Well-formedness of a store as built by add_banner: every banner has a
positive declared budget and the index references only valid positions. -/
def WF (s : InMemoryStorage) : Prop :=
  (∀ b ∈ s.banners, 0 < b.shows_amount) ∧
  (∀ p ∈ s.index, ∀ i ∈ p.2, i < s.banners.length)

instance (s : InMemoryStorage) : Decidable (WF s) :=
  inferInstanceAs (Decidable (_ ∧ _))

/-- The selection rule as the specification text states it: no candidate
gives none, one candidate gives that candidate, otherwise the smallest
prefix-sum position whose value is at least the reduced draw, translated
through the projection. -/
def select_spec (cw : CumulativeWeights) (rnd : Nat) : Option Nat :=
  if cw.weights.isEmpty then none
  else if cw.weights.length = 1 then some (cw.idx_projection.project 0)
  else
    let mx := cw.weights.getLast?.getD 0
    let r := rnd % (mx + 1)
    some (cw.idx_projection.project (cw.weights.findIdx (fun c => decide (r ≤ c))))

/-- Concrete store of the specification example: banner a with budget 2 in
category x, banner b with budget 1 in category y. -/
def exStore : InMemoryStorage :=
  ((InMemoryStorage.new.add_banner "http://a/1.jpg" 2 ["x"]).2.add_banner
    "http://b/1.jpg" 1 ["y"]).2

/-- Concrete store with two banners of budget 1 sharing category z. -/
def zStore : InMemoryStorage :=
  ((InMemoryStorage.new.add_banner "u1" 1 ["z"]).2.add_banner "u2" 1 ["z"]).2

/-- State of zStore after one filtered selection with iteration order
[1, 0] and raw draw 0 (banner 1 wins and is depleted). -/
def zStoreAfter : InMemoryStorage := (zStore.get_banner_html ["z"] [1, 0] 0).2

/-- Store for the empty-filter depletion scenario: two banners of budget 1
in distinct categories. -/
def c10Store : InMemoryStorage :=
  ((InMemoryStorage.new.add_banner "http://a/1.jpg" 1 ["x"]).2.add_banner
    "http://b/1.jpg" 1 ["y"]).2

/-- c10Store after one empty-filter selection with raw draw 0: banner 0
wins the global draw and is fully depleted. -/
def c10Depleted : InMemoryStorage := (c10Store.get_banner_html [] [] 0).2

/-- Single-banner store used as a witness input. -/
def oneStore : InMemoryStorage := (InMemoryStorage.new.add_banner "u" 1 ["c"]).2

/-- oneStore after one global selection with raw draw 0. -/
def oneStoreAfter : InMemoryStorage := (oneStore.get_banner_html [] [] 0).2

/-! Helper lemmas about lists, prefix sums and the search loop. -/

theorem getD_mem {α} (xs : List α) (d : α) (i : Nat) (h : i < xs.length) :
    xs.getD i d ∈ xs := by
  rw [List.getD_eq_get xs d h]
  exact xs.get_mem i h

theorem getLastD_eq_getD (xs : List Nat) (h : xs ≠ []) :
    xs.getLast?.getD 0 = xs.getD (xs.length - 1) 0 := by
  induction xs with
  | nil => exact absurd rfl h
  | cons x t ih =>
    cases t with
    | nil => rfl
    | cons y t' =>
      have h' : y :: t' ≠ [] := by simp
      rw [List.getLast?_cons_cons, ih h']
      simp

theorem cumFrom_length (acc : Nat) (ws : List Nat) :
    (cumFrom acc ws).length = ws.length := by
  induction ws generalizing acc with
  | nil => rfl
  | cons w t ih => simp [cumFrom, ih]

theorem cumFrom_getD (ws : List Nat) :
    ∀ acc i, i < ws.length →
      (cumFrom acc ws).getD i 0 = acc + (ws.take (i + 1)).sum := by
  induction ws with
  | nil => intro acc i h; simp at h
  | cons w t ih =>
    intro acc i h
    cases i with
    | zero => simp [cumFrom]
    | succ j =>
      simp only [cumFrom, List.getD_cons_succ, List.take_succ_cons, List.sum_cons]
      rw [ih (acc + w) j (by simpa using h)]
      omega

theorem sum_take_succ (ws : List Nat) :
    ∀ i, i < ws.length → (ws.take (i + 1)).sum = (ws.take i).sum + ws.getD i 0 := by
  induction ws with
  | nil => intro i h; simp at h
  | cons w t ih =>
    intro i h
    cases i with
    | zero => simp
    | succ j =>
      simp only [List.take_succ_cons, List.sum_cons, List.getD_cons_succ]
      rw [ih j (by simpa using h)]
      omega

theorem sum_take_le (ws : List Nat) (n : Nat) : (ws.take n).sum ≤ ws.sum := by
  conv_rhs => rw [← List.take_append_drop n ws]
  rw [List.sum_append]
  exact Nat.le_add_right _ _

theorem cumFrom_getLast (ws : List Nat) :
    ∀ acc, ws ≠ [] → (cumFrom acc ws).getLast?.getD 0 = acc + ws.sum := by
  induction ws with
  | nil => intro acc h; exact absurd rfl h
  | cons w t ih =>
    intro acc _
    cases t with
    | nil => simp [cumFrom]
    | cons u t' =>
      have h' : u :: t' ≠ [] := by simp
      have hstep := ih (acc + w) h'
      simp only [cumFrom] at hstep ⊢
      rw [List.getLast?_cons_cons, hstep, List.sum_cons, List.sum_cons, List.sum_cons]
      omega

theorem cumFrom_gt (ws : List Nat) (hpos : ∀ w ∈ ws, 0 < w) :
    ∀ acc x, x ∈ cumFrom acc ws → acc < x := by
  induction ws with
  | nil => intro acc x h; simp [cumFrom] at h
  | cons w t ih =>
    intro acc x h
    simp only [cumFrom, List.mem_cons] at h
    rcases h with h | h
    · have : 0 < w := hpos w (by simp)
      omega
    · have := ih (fun a ha => hpos a (by simp [ha])) (acc + w) x h
      have : 0 < w := hpos w (by simp)
      omega

theorem cumFrom_sorted (ws : List Nat) (hpos : ∀ w ∈ ws, 0 < w) :
    ∀ acc, List.Sorted (· < ·) (cumFrom acc ws) := by
  induction ws with
  | nil => intro acc; simp [cumFrom]
  | cons w t ih =>
    intro acc
    have hpos' : ∀ a ∈ t, 0 < a := fun a ha => hpos a (by simp [ha])
    simp only [cumFrom, List.sorted_cons]
    exact ⟨fun b hb => cumFrom_gt t hpos' (acc + w) b hb, ih hpos' (acc + w)⟩

theorem sorted_getD_lt (xs : List Nat) (hs : List.Sorted (· < ·) xs) :
    ∀ i j, i < j → j < xs.length → xs.getD i 0 < xs.getD j 0 := by
  intro i j hij hj
  have hi : i < xs.length := lt_trans hij hj
  rw [List.getD_eq_get xs 0 hi, List.getD_eq_get xs 0 hj]
  exact (List.pairwise_iff_get.mp hs) ⟨i, hi⟩ ⟨j, hj⟩ hij

theorem sorted_getD_le (xs : List Nat) (hs : List.Sorted (· < ·) xs) :
    ∀ i j, i ≤ j → j < xs.length → xs.getD i 0 ≤ xs.getD j 0 := by
  intro i j hij hj
  rcases Nat.lt_or_ge i j with h | h
  · exact le_of_lt (sorted_getD_lt xs hs i j h hj)
  · have : i = j := le_antisymm hij h
    rw [this]

theorem findIdx_before {α} (p : α → Bool) (d : α) :
    ∀ (xs : List α) (j : Nat), j < xs.findIdx p → p (xs.getD j d) = false := by
  intro xs
  induction xs with
  | nil => intro j h; rw [List.findIdx_nil] at h; omega
  | cons x t ih =>
    intro j h
    rw [List.findIdx_cons] at h
    by_cases hx : p x
    · simp [hx] at h
    · simp only [hx, cond_false] at h
      cases j with
      | zero => simpa using hx
      | succ m =>
        simp only [List.getD_cons_succ]
        exact ih m (by omega)

theorem findIdx_at {α} (p : α → Bool) (d : α) :
    ∀ (xs : List α), xs.findIdx p < xs.length → p (xs.getD (xs.findIdx p) d) = true := by
  intro xs
  induction xs with
  | nil => intro h; simp at h
  | cons x t ih =>
    intro h
    by_cases hx : p x
    · simp [List.findIdx_cons, hx]
    · rw [List.findIdx_cons] at h ⊢
      simp only [hx, cond_false] at h ⊢
      simp only [List.getD_cons_succ]
      exact ih (by simpa using h)

theorem findIdx_eq_of {α} (p : α → Bool) (d : α) :
    ∀ (xs : List α) (k : Nat), k < xs.length → p (xs.getD k d) = true →
      (∀ j, j < k → p (xs.getD j d) = false) → xs.findIdx p = k := by
  intro xs
  induction xs with
  | nil => intro k hk; simp at hk
  | cons x t ih =>
    intro k hk hpk hbefore
    cases k with
    | zero =>
      simp only [List.getD_cons_zero] at hpk
      simp [List.findIdx_cons, hpk]
    | succ m =>
      have h0 : p x = false := by simpa using hbefore 0 (Nat.succ_pos m)
      simp only [List.findIdx_cons, h0, cond_false]
      have := ih m (by simpa using hk) (by simpa using hpk)
        (fun j hj => by simpa using hbefore (j + 1) (by omega))
      omega

theorem findIdx_lt_length_of {α} (p : α → Bool) (d : α) (xs : List α) (m : Nat)
    (hm : m < xs.length) (hpm : p (xs.getD m d) = true) : xs.findIdx p < xs.length := by
  by_contra h
  push_neg at h
  have := findIdx_before p d xs m (lt_of_lt_of_le hm h)
  rw [hpm] at this
  exact absurd this (by simp)

theorem bsLoop_spec (xs : List Nat) (t : Nat)
    (hmono : ∀ i j, i < j → j < xs.length → xs.getD i 0 < xs.getD j 0) :
    ∀ (fuel left right), right - left ≤ fuel → left ≤ right → right ≤ xs.length →
      (∀ j, j < left → xs.getD j 0 < t) →
      (∀ j, right ≤ j → j < xs.length → t ≤ xs.getD j 0) →
      (∀ j, j < bsResolve (bsLoop xs t fuel left right) → xs.getD j 0 < t) ∧
      bsResolve (bsLoop xs t fuel left right) ≤ xs.length ∧
      (bsResolve (bsLoop xs t fuel left right) < xs.length →
        t ≤ xs.getD (bsResolve (bsLoop xs t fuel left right)) 0) := by
  intro fuel
  induction fuel with
  | zero =>
    intro left right hn hlr hrlen hleft hright
    have hle : left = right := by omega
    rw [bsLoop]
    refine ⟨?_, by simp [bsResolve]; omega, ?_⟩
    · intro j hj
      simp only [bsResolve] at hj
      exact hleft j hj
    · intro hlt
      simp only [bsResolve] at hlt ⊢
      exact hright left (by omega) hlt
  | succ fuel ih =>
    intro left right hn hlr hrlen hleft hright
    rw [bsLoop]
    by_cases h : left < right
    · rw [if_pos h]
      have hmidlt : left + (right - left) / 2 < right := by omega
      have hmidge : left ≤ left + (right - left) / 2 := by omega
      by_cases h1 : xs.getD (left + (right - left) / 2) 0 < t
      · rw [if_pos h1]
        refine ih (left + (right - left) / 2 + 1) right (by omega) (by omega) hrlen ?_ hright
        intro j hj
        rcases Nat.lt_or_ge j (left + (right - left) / 2) with hj' | hj'
        · exact lt_trans (hmono j (left + (right - left) / 2) hj' (by omega)) h1
        · have : j = left + (right - left) / 2 := by omega
          rw [this]
          exact h1
      · rw [if_neg h1]
        by_cases h2 : t < xs.getD (left + (right - left) / 2) 0
        · rw [if_pos h2]
          refine ih left (left + (right - left) / 2) (by omega) (by omega) (by omega)
            hleft ?_
          intro j hjmid hjlen
          rcases Nat.lt_or_ge (left + (right - left) / 2) j with hj' | hj'
          · exact le_of_lt (lt_trans h2 (hmono (left + (right - left) / 2) j hj' hjlen))
          · have : j = left + (right - left) / 2 := by omega
            rw [this]
            exact le_of_lt h2
        · rw [if_neg h2]
          have heq : xs.getD (left + (right - left) / 2) 0 = t := by omega
          refine ⟨?_, by simp [bsResolve]; omega, ?_⟩
          · intro j hj
            simp only [bsResolve] at hj
            have := hmono j (left + (right - left) / 2) hj (by omega)
            omega
          · intro _
            simp only [bsResolve]
            omega
    · rw [if_neg h]
      have hle : left = right := by omega
      refine ⟨?_, by simp [bsResolve]; omega, ?_⟩
      · intro j hj
        simp only [bsResolve] at hj
        exact hleft j hj
      · intro hlt
        simp only [bsResolve] at hlt ⊢
        exact hright left (by omega) hlt

theorem select_uniformly_eq (cw : CumulativeWeights) (rnd : Nat)
    (hne : cw.weights ≠ []) (hs : List.Sorted (· < ·) cw.weights) :
    cw.select_uniformly rnd =
      some (cw.idx_projection.project
        (cw.weights.findIdx
          (fun c => decide (rnd % (cw.weights.getLast?.getD 0 + 1) ≤ c)))) := by
  have hlen : 0 < cw.weights.length := List.length_pos.mpr hne
  have hemp : cw.weights.isEmpty = false := by
    simpa [List.isEmpty_iff] using hne
  have hmx : rnd % (cw.weights.getLast?.getD 0 + 1) ≤ cw.weights.getLast?.getD 0 :=
    Nat.lt_succ_iff.mp (Nat.mod_lt rnd (by omega))
  have hlast : cw.weights.getLast?.getD 0 = cw.weights.getD (cw.weights.length - 1) 0 :=
    getLastD_eq_getD cw.weights hne
  by_cases h1 : cw.weights.length = 1
  · have hfi : cw.weights.findIdx
        (fun c => decide (rnd % (cw.weights.getLast?.getD 0 + 1) ≤ c)) = 0 := by
      refine findIdx_eq_of _ 0 cw.weights 0 hlen ?_ (fun j hj => by omega)
      rw [hlast, h1] at hmx ⊢
      simpa using hmx
    rw [hfi]
    simp [CumulativeWeights.select_uniformly, hemp, h1]
  · have hmono := sorted_getD_lt cw.weights hs
    have hspec := bsLoop_spec cw.weights (rnd % (cw.weights.getLast?.getD 0 + 1)) hmono
      cw.weights.length 0 cw.weights.length (by omega) (by omega) (le_refl _)
      (fun j hj => by omega) (fun j hj hjlen => by omega)
    set r := rnd % (cw.weights.getLast?.getD 0 + 1) with hr
    set k := bsResolve (bsLoop cw.weights r cw.weights.length 0 cw.weights.length) with hk
    have hklt : k < cw.weights.length := by
      rcases Nat.lt_or_ge k cw.weights.length with h | h
      · exact h
      · exfalso
        have := hspec.1 (cw.weights.length - 1) (by omega)
        rw [← hlast] at this
        omega
    have hfi : cw.weights.findIdx (fun c => decide (r ≤ c)) = k := by
      refine findIdx_eq_of _ 0 cw.weights k hklt ?_ ?_
      · simpa using hspec.2.2 hklt
      · intro j hj
        simpa using hspec.1 j hj
    rw [hfi]
    simp only [CumulativeWeights.select_uniformly, hemp, Bool.false_eq_true,
      if_false, if_neg h1]
    rcases hbs : bsLoop cw.weights r cw.weights.length 0 cw.weights.length with i | i
    · have : k = i := by rw [hk, hbs]; rfl
      rw [← hr]
      simp [binary_search, hbs, this]
    · have : k = i := by rw [hk, hbs]; rfl
      rw [← hr]
      simp [binary_search, hbs, this]

theorem add_weight_eq (cw : CumulativeWeights) (w : Nat) :
    cw.add_weight w =
      { cw with weights := cw.weights ++ [cw.weights.getLast?.getD 0 + w] } := rfl

theorem foldl_add_weight (ws : List Nat) :
    ∀ (l : List Nat) (pr : IdxProjection),
      ws.foldl CumulativeWeights.add_weight { weights := l, idx_projection := pr } =
        { weights := l ++ cumFrom (l.getLast?.getD 0) ws, idx_projection := pr } := by
  induction ws with
  | nil => intro l pr; simp [cumFrom]
  | cons w t ih =>
    intro l pr
    rw [List.foldl_cons, add_weight_eq]
    simp only
    rw [ih, List.getLast?_concat]
    simp [cumFrom]

theorem buildTable_eq (ws : List Nat) :
    buildTable ws = { weights := cumFrom 0 ws, idx_projection := .AsIs } := by
  have := foldl_add_weight ws [] .AsIs
  simpa [buildTable, CumulativeWeights.new] using this

theorem add_weight_for_idx_eq (cw : CumulativeWeights) (w idx : Nat) (p : List Nat)
    (hp : cw.idx_projection = .Specific p) :
    cw.add_weight_for_idx w idx =
      { weights := cw.weights ++ [cw.weights.getLast?.getD 0 + w],
        idx_projection := .Specific (p ++ [idx]) } := by
  unfold CumulativeWeights.add_weight_for_idx
  rw [hp]
  rfl

theorem foldl_add_weight_for_idx (s : InMemoryStorage) :
    ∀ (ord l p : List Nat),
      List.foldl
        (fun (w : CumulativeWeights) (idx : Nat) =>
          w.add_weight_for_idx (s.banners.getD idx bannerOOB).shows_amount idx)
        { weights := l, idx_projection := .Specific p } ord =
      { weights := l ++ cumFrom (l.getLast?.getD 0)
          (ord.map (fun idx => (s.banners.getD idx bannerOOB).shows_amount)),
        idx_projection := .Specific (p ++ ord) } := by
  intro ord
  induction ord with
  | nil => intro l p; simp [cumFrom]
  | cons i t ih =>
    intro l p
    rw [List.foldl_cons, add_weight_for_idx_eq _ _ _ p rfl]
    simp only
    rw [ih, List.getLast?_concat]
    simp [cumFrom]

theorem get_cumulative_weights_eq (s : InMemoryStorage) (ord : List Nat) :
    s.get_cumulative_weights ord =
      { weights := cumFrom 0 (ord.map (fun idx => (s.banners.getD idx bannerOOB).shows_amount)),
        idx_projection := .Specific ord } := by
  have := foldl_add_weight_for_idx s ord [] []
  simpa [InMemoryStorage.get_cumulative_weights, CumulativeWeights.with_projection]
    using this

theorem projList_gcw (s : InMemoryStorage) (ord : List Nat) :
    (s.get_cumulative_weights ord).projList = ord := by
  rw [get_cumulative_weights_eq]
  rfl

/-! Lemmas about the category index updates performed by add_banner. -/

theorem lookup_indexAdd_self (m : List (Category × List Nat)) (c : Category) (i : Nat) :
    List.lookup c (indexAdd m c i) = some ((List.lookup c m).getD [] ++ [i]) := by
  induction m with
  | nil => simp [indexAdd, List.lookup]
  | cons kv t ih =>
    obtain ⟨k, l⟩ := kv
    by_cases h : k = c
    · subst h
      simp [indexAdd, List.lookup]
    · have hck : (c == k) = false := beq_eq_false_iff_ne.mpr (Ne.symm h)
      simp [indexAdd, h, List.lookup, hck, ih]

theorem lookup_indexAdd_other (m : List (Category × List Nat)) (c c' : Category) (i : Nat)
    (h : c' ≠ c) : List.lookup c' (indexAdd m c i) = List.lookup c' m := by
  induction m with
  | nil => simp [indexAdd, List.lookup, beq_eq_false_iff_ne.mpr h]
  | cons kv t ih =>
    obtain ⟨k, l⟩ := kv
    by_cases hk : k = c
    · subst hk
      simp [indexAdd, List.lookup, beq_eq_false_iff_ne.mpr h]
    · simp [indexAdd, hk, List.lookup, ih]

theorem lookup_foldl_indexAdd_not_mem (cats : List Category) (c' : Category) (i : Nat)
    (h : c' ∉ cats) :
    ∀ m, List.lookup c' (cats.foldl (fun m c => indexAdd m c i) m) = List.lookup c' m := by
  induction cats with
  | nil => intro m; rfl
  | cons c t ih =>
    intro m
    have hne : c' ≠ c := fun hc => h (by simp [hc])
    have ht : c' ∉ t := fun hc => h (by simp [hc])
    rw [List.foldl_cons, ih ht, lookup_indexAdd_other m c c' i hne]

theorem lookup_foldl_indexAdd_mem (cats : List Category) (c : Category) (i : Nat)
    (h : c ∈ cats) :
    ∀ m, ∃ l, List.lookup c (cats.foldl (fun m c => indexAdd m c i) m) = some l ∧ i ∈ l := by
  induction cats with
  | nil => exact absurd h (by simp)
  | cons c0 t ih =>
    intro m
    by_cases hct : c ∈ t
    · exact ih hct (indexAdd m c0 i)
    · have hc0 : c = c0 := by
        rcases List.mem_cons.mp h with h' | h'
        · exact h'
        · exact absurd h' hct
      subst hc0
      rw [List.foldl_cons, lookup_foldl_indexAdd_not_mem t c i hct]
      exact ⟨(List.lookup c m).getD [] ++ [i], lookup_indexAdd_self m c i, by simp⟩

/-! Membership in the collected candidate stream. -/

theorem mem_candidate_stream (s : InMemoryStorage) (cats : List Category) (j : Nat) :
    j ∈ s.candidate_stream cats ↔
      ((∃ k ∈ cats, ∃ l, List.lookup k s.index = some l ∧ j ∈ l) ∧
        (s.banners.getD j bannerOOB).can_show = true) := by
  simp only [InMemoryStorage.candidate_stream, List.mem_filter, List.mem_flatten,
    List.mem_filterMap]
  constructor
  · rintro ⟨⟨l, ⟨k, hk, hl⟩, hj⟩, hcs⟩
    exact ⟨⟨k, hk, l, hl, hj⟩, hcs⟩
  · rintro ⟨⟨k, hk, l, hl, hj⟩, hcs⟩
    exact ⟨⟨l, ⟨k, hk, hl⟩, hj⟩, hcs⟩

/-! Unwinding the selection and depletion chain. -/

theorem banner_show_html_parts (b : Banner) (html : String) (b' : Banner)
    (h : b.show_html = (some html, b')) :
    b.can_show = true ∧ html = HTML_HEAD ++ b.url ++ HTML_TAIL ∧
      b' = { b with shows_left := b.shows_left - 1 } := by
  by_cases hc : b.can_show
  · simp [Banner.show_html, hc] at h
    exact ⟨hc, h.1.symm, h.2.symm⟩
  · simp [Banner.show_html, hc] at h

theorem show_html_some (s : InMemoryStorage) (w : CumulativeWeights) (rnd : Nat)
    (html : String) (s' : InMemoryStorage)
    (h : s.show_html w rnd = (some html, s')) :
    ∃ idx b, w.select_uniformly rnd = some idx ∧ s.banners.get? idx = some b ∧
      b.can_show = true ∧ html = HTML_HEAD ++ b.url ++ HTML_TAIL ∧
      s' = { s with banners := s.banners.set idx { b with shows_left := b.shows_left - 1 } } := by
  unfold InMemoryStorage.show_html at h
  rcases hsel : w.select_uniformly rnd with _ | idx <;> rw [hsel] at h <;> dsimp only at h
  · simp at h
  · rcases hget : s.banners.get? idx with _ | b <;> rw [hget] at h <;> dsimp only at h
    · simp at h
    · simp only [Prod.mk.injEq] at h
      obtain ⟨hres, hstate⟩ := h
      rcases hbs : b.show_html with ⟨r1, b'⟩
      rw [hbs] at hres hstate
      simp only at hres hstate
      rw [hres] at hbs
      obtain ⟨hcs, hhtml, hb'⟩ := banner_show_html_parts b html b' hbs
      exact ⟨idx, b, rfl, hget, hcs, hhtml, by rw [← hstate, hb']⟩

theorem Banner.show_html_inv (b : Banner) (h : b.shows_left ≤ b.shows_amount) :
    (b.show_html).2.shows_left ≤ (b.show_html).2.shows_amount := by
  by_cases hc : b.can_show <;> simp [Banner.show_html, hc] <;> omega

theorem show_html_state_inv (P : Banner → Prop)
    (hP : ∀ b, P b → P (b.show_html).2)
    (s : InMemoryStorage) (w : CumulativeWeights) (rnd : Nat)
    (h : ∀ b ∈ s.banners, P b) :
    ∀ b ∈ (s.show_html w rnd).2.banners, P b := by
  intro b hb
  unfold InMemoryStorage.show_html at hb
  rcases hsel : w.select_uniformly rnd with _ | idx <;> rw [hsel] at hb <;> dsimp only at hb
  · exact h b hb
  · rcases hget : s.banners.get? idx with _ | bb <;> rw [hget] at hb <;> dsimp only at hb
    · exact h b hb
    · rcases List.mem_or_eq_of_mem_set hb with hx | hx
      · exact h b hx
      · rw [hx]
        exact hP bb (h bb (List.get?_mem hget))

theorem getD_set_self (xs : List Banner) (i : Nat) (x : Banner) (h : i < xs.length) :
    (xs.set i x).getD i bannerOOB = x := by
  simp [List.getD_eq_get, List.length_set, h]

/-! Selection against a single eligible candidate is deterministic. -/

theorem serve_single_success (s : InMemoryStorage) (k : Category) (i : Nat)
    (ord : List Nat) (rnd : Nat)
    (hik : List.lookup k s.index = some [i]) (hi : i < s.banners.length)
    (halive : (s.banners.getD i bannerOOB).can_show = true)
    (hord : IsHashOrder (s.candidate_stream [k]) ord) :
    s.get_banner_html [k] ord rnd =
      (some (HTML_HEAD ++ (s.banners.getD i bannerOOB).url ++ HTML_TAIL), { s with banners := s.banners.set i { s.banners.getD i bannerOOB with shows_left := (s.banners.getD i bannerOOB).shows_left - 1 } }) := by
  have halive2 : (s.banners[i]?.getD bannerOOB).can_show = true := by
    simpa [List.getD_eq_getElem?_getD] using halive
  have hstream : s.candidate_stream [k] = [i] := by
    simp [InMemoryStorage.candidate_stream, hik, halive2]
  have hordi : ord = [i] := by
    rw [IsHashOrder, hstream] at hord
    simpa [List.perm_singleton] using hord
  subst hordi
  have hget : s.banners.get? i = some (s.banners.getD i bannerOOB) := by
    rw [List.getD_eq_get _ _ hi, List.get?_eq_get hi]
  simp only [InMemoryStorage.get_banner_html, InMemoryStorage.filter_by_categories,
    List.isEmpty_cons, Bool.false_eq_true, if_false]
  rw [get_cumulative_weights_eq]
  have hsel : CumulativeWeights.select_uniformly
      { weights := cumFrom 0
          (([i] : List Nat).map (fun idx => (s.banners.getD idx bannerOOB).shows_amount)),
        idx_projection := .Specific [i] } rnd = some i := by
    simp [CumulativeWeights.select_uniformly, cumFrom, IdxProjection.project]
  unfold InMemoryStorage.show_html
  rw [hsel]
  dsimp only
  rw [hget]
  dsimp only
  simp [Banner.show_html, halive2]

theorem serve_single_exhausted (s : InMemoryStorage) (k : Category) (i : Nat)
    (ord : List Nat) (rnd : Nat)
    (hik : List.lookup k s.index = some [i])
    (hdead : (s.banners.getD i bannerOOB).can_show = false)
    (hord : IsHashOrder (s.candidate_stream [k]) ord) :
    s.get_banner_html [k] ord rnd = (none, s) := by
  have hdead2 : (s.banners[i]?.getD bannerOOB).can_show = false := by
    simpa [List.getD_eq_getElem?_getD] using hdead
  have hstream : s.candidate_stream [k] = [] := by
    simp [InMemoryStorage.candidate_stream, hik, hdead2]
  have hordi : ord = [] := by
    rw [IsHashOrder, hstream] at hord
    simpa using hord
  subst hordi
  simp [InMemoryStorage.get_banner_html, InMemoryStorage.filter_by_categories,
    InMemoryStorage.show_html, get_cumulative_weights_eq,
    CumulativeWeights.select_uniformly, cumFrom]

/-- C3: a banner whose remaining budget is n and which is the only banner
indexed under category k yields a markup result on each of n consecutive
selections restricted to k, and any further selection restricted to k
returns none, whatever iteration orders and random draws are used. -/
theorem C3_consecutive_serves (k : Category) (i : Nat) :
    ∀ (steps : List (List Nat × Nat)) (s : InMemoryStorage) (n : Nat),
      List.lookup k s.index = some [i] → i < s.banners.length →
      (s.banners.getD i bannerOOB).shows_left = n → steps.length = n →
      validSteps s [k] steps = true →
      (∀ o ∈ (serveSeq s [k] steps).1, o.isSome = true) ∧
      (∀ ord rnd, ordOk (serveSeq s [k] steps).2 [k] ord →
        ((serveSeq s [k] steps).2.get_banner_html [k] ord rnd).1 = none) := by
  intro steps
  induction steps with
  | nil =>
    intro s n hik hi hn hlen _
    refine ⟨by simp [serveSeq], ?_⟩
    intro ord rnd hord
    have hn0 : n = 0 := by simpa using hlen.symm
    have hdead : (s.banners.getD i bannerOOB).can_show = false := by
      simp only [Banner.can_show, decide_eq_false_iff_not]
      omega
    rcases hord with h | h
    · exact absurd h (by simp)
    · rw [serveSeq] at h ⊢
      rw [serve_single_exhausted s k i ord rnd hik hdead h]
  | cons step rest ih =>
    obtain ⟨ord, rnd⟩ := step
    intro s n hik hi hn hlen hvalid
    simp only [validSteps, Bool.and_eq_true, decide_eq_true_eq] at hvalid
    obtain ⟨hord0, hvrest⟩ := hvalid
    have hord : IsHashOrder (s.candidate_stream [k]) ord := by
      rcases hord0 with h | h
      · exact absurd h (by simp)
      · exact h
    have hlen' : rest.length = n - 1 := by
      simp only [List.length_cons] at hlen
      omega
    have hpos : 0 < n := by
      simp only [List.length_cons] at hlen
      omega
    have halive : (s.banners.getD i bannerOOB).can_show = true := by
      simp only [Banner.can_show, decide_eq_true_eq]
      omega
    have hstep := serve_single_success s k i ord rnd hik hi halive hord
    have hik2 : List.lookup k ((s.get_banner_html [k] ord rnd).2).index = some [i] := by
      rw [hstep]
      exact hik
    have hi2 : i < ((s.get_banner_html [k] ord rnd).2).banners.length := by
      rw [hstep]
      simpa [List.length_set] using hi
    have hn2 : (((s.get_banner_html [k] ord rnd).2).banners.getD i bannerOOB).shows_left
        = n - 1 := by
      rw [hstep]
      simp only
      rw [getD_set_self s.banners i _ hi]
      dsimp only
      omega
    have ihres := ih (s.get_banner_html [k] ord rnd).2 (n - 1) hik2 hi2 hn2 hlen' hvrest
    rw [serveSeq]
    refine ⟨?_, ?_⟩
    · intro o ho
      simp only at ho
      rcases List.mem_cons.mp ho with h | h
      · rw [h, hstep]
        rfl
      · exact ihres.1 o h
    · intro ord2 rnd2 hord2
      exact ihres.2 ord2 rnd2 hord2

/-- Witness for C3 at the specification example: the category-x banner has
budget 2, two selections succeed and a third returns none. -/
theorem C3_witness :
    (∀ o ∈ (serveSeq exStore ["x"] [([0], 0), ([0], 0)]).1, o.isSome = true) ∧
    (∀ ord rnd, ordOk (serveSeq exStore ["x"] [([0], 0), ([0], 0)]).2 ["x"] ord →
      ((serveSeq exStore ["x"] [([0], 0), ([0], 0)]).2.get_banner_html ["x"] ord rnd).1 = none) :=
  C3_consecutive_serves "x" 0 [([0], 0), ([0], 0)] exStore 2
    (by decide) (by decide) (by decide) (by decide) (by decide)

/-- C1: both store operations preserve the bound remaining at most total on
every banner; remaining is a Nat in the model and the single decrement in
Banner.show_html is guarded by can_show, so it never goes negative. -/
theorem C1_remaining_invariant (s : InMemoryStorage)
    (h : ∀ b ∈ s.banners, b.shows_left ≤ b.shows_amount) :
    (∀ url n cats, ∀ b ∈ (s.add_banner url n cats).2.banners,
      b.shows_left ≤ b.shows_amount) ∧
    (∀ cats ord rnd, ∀ b ∈ (s.get_banner_html cats ord rnd).2.banners,
      b.shows_left ≤ b.shows_amount) := by
  constructor
  · intro url n cats b hb
    unfold InMemoryStorage.add_banner at hb
    split_ifs at hb
    · exact h b hb
    · exact h b hb
    · exact h b hb
    · simp only at hb
      rcases List.mem_append.mp hb with hx | hx
      · exact h b hx
      · have : b = Banner.new url n := by simpa using hx
        rw [this]
        exact le_refl n
  · intro cats ord rnd
    unfold InMemoryStorage.get_banner_html
    rcases hf : s.filter_by_categories cats with _ | stream <;> dsimp only
    · unfold InMemoryStorage.show_html_select_all
      exact show_html_state_inv _ (fun b hb => Banner.show_html_inv b hb)
        s s.cumulative_weights rnd h
    · exact show_html_state_inv _ (fun b hb => Banner.show_html_inv b hb)
        s (s.get_cumulative_weights ord) rnd h

/-- Witness for C1 at the specification example store. -/
theorem C1_witness :
    (∀ url n cats, ∀ b ∈ (exStore.add_banner url n cats).2.banners,
      b.shows_left ≤ b.shows_amount) ∧
    (∀ cats ord rnd, ∀ b ∈ (exStore.get_banner_html cats ord rnd).2.banners,
      b.shows_left ≤ b.shows_amount) :=
  C1_remaining_invariant exStore (by decide)

/-- C5: each invalid input is rejected with the matching error kind and the
store is returned unchanged; a valid insertion reports ok, appends exactly
one banner, indexes it under every listed category and extends the global
table by one prefix sum increased by the declared budget. -/
theorem C5_validation (s : InMemoryStorage) (url : String) (n : Nat) (cats : List Category) :
    (url = "" → s.add_banner url n cats = (.error .IllegalUrl, s)) ∧
    (url ≠ "" → n = 0 → s.add_banner url n cats = (.error .IllegalShowsAmount, s)) ∧
    (url ≠ "" → n ≠ 0 → cats = [] → s.add_banner url n cats = (.error .EmptyCategories, s)) ∧
    (url ≠ "" → n ≠ 0 → cats ≠ [] →
      (s.add_banner url n cats).1 = .ok () ∧
      (s.add_banner url n cats).2.banners = s.banners ++ [Banner.new url n] ∧
      (∀ c ∈ cats, ∃ l, List.lookup c (s.add_banner url n cats).2.index = some l ∧
        s.banners.length ∈ l) ∧
      (s.add_banner url n cats).2.cumulative_weights.weights =
        s.cumulative_weights.weights ++ [s.cumulative_weights.weights.getLast?.getD 0 + n]) := by
  refine ⟨?_, ?_, ?_, ?_⟩
  · intro hu
    subst hu
    rfl
  · intro hu hn
    have h1 : url.isEmpty = false := by
      rw [Bool.eq_false_iff]
      intro hc
      exact hu ((String.isEmpty_iff url).mp hc)
    subst hn
    simp [InMemoryStorage.add_banner, h1]
  · intro hu hn hc
    have h1 : url.isEmpty = false := by
      rw [Bool.eq_false_iff]
      intro hx
      exact hu ((String.isEmpty_iff url).mp hx)
    subst hc
    simp [InMemoryStorage.add_banner, h1, hn]
  · intro hu hn hc
    have h1 : url.isEmpty = false := by
      rw [Bool.eq_false_iff]
      intro hx
      exact hu ((String.isEmpty_iff url).mp hx)
    have h3 : cats.isEmpty = false := by
      rw [Bool.eq_false_iff]
      intro hx
      exact hc (List.isEmpty_iff.mp hx)
    refine ⟨?_, ?_, ?_, ?_⟩
    · simp [InMemoryStorage.add_banner, h1, hn, h3]
    · simp [InMemoryStorage.add_banner, h1, hn, h3]
    · intro c hcc
      have hred : (s.add_banner url n cats).2.index =
          cats.foldl (fun m c => indexAdd m c s.banners.length) s.index := by
        simp [InMemoryStorage.add_banner, h1, hn, h3]
      rw [hred]
      exact lookup_foldl_indexAdd_mem cats c s.banners.length hcc s.index
    · simp [InMemoryStorage.add_banner, h1, hn, h3, CumulativeWeights.add_weight]

/-- Witness for C5: all four branches exercised at concrete inputs. -/
theorem C5_witness :
    InMemoryStorage.new.add_banner "" 1 ["cat"] = (.error .IllegalUrl, InMemoryStorage.new) ∧
    InMemoryStorage.new.add_banner "some" 0 ["cat"] =
      (.error .IllegalShowsAmount, InMemoryStorage.new) ∧
    InMemoryStorage.new.add_banner "some" 1 [] =
      (.error .EmptyCategories, InMemoryStorage.new) ∧
    (InMemoryStorage.new.add_banner "some" 1 ["cat"]).1 = .ok () :=
  ⟨(C5_validation InMemoryStorage.new "" 1 ["cat"]).1 rfl,
   (C5_validation InMemoryStorage.new "some" 0 ["cat"]).2.1 (by decide) rfl,
   (C5_validation InMemoryStorage.new "some" 1 []).2.2.1 (by decide) (by decide) rfl,
   ((C5_validation InMemoryStorage.new "some" 1 ["cat"]).2.2.2 (by decide) (by decide)
     (by decide)).1⟩

/-- C8: whenever a selection returns markup, the string is exactly the fixed
head literal, the winning banner url unescaped, and the fixed tail literal. -/
theorem C8_markup_byte_exact (s : InMemoryStorage) (cats : List Category) (ord : List Nat)
    (rnd : Nat) (html : String) (s' : InMemoryStorage)
    (h : s.get_banner_html cats ord rnd = (some html, s')) :
    ∃ b, b ∈ s.banners ∧ html = HTML_HEAD ++ b.url ++ HTML_TAIL := by
  unfold InMemoryStorage.get_banner_html at h
  rcases hf : s.filter_by_categories cats with _ | stream <;> rw [hf] at h <;> dsimp only at h
  · unfold InMemoryStorage.show_html_select_all at h
    obtain ⟨idx, b, _, hget, _, hhtml, _⟩ := show_html_some s _ rnd html s' h
    exact ⟨b, List.get?_mem hget, hhtml⟩
  · obtain ⟨idx, b, _, hget, _, hhtml, _⟩ := show_html_some s _ rnd html s' h
    exact ⟨b, List.get?_mem hget, hhtml⟩

/-- Witness for C8 at the single-banner store. -/
theorem C8_witness :
    ∃ b, b ∈ oneStore.banners ∧
      HTML_HEAD ++ "u" ++ HTML_TAIL = HTML_HEAD ++ b.url ++ HTML_TAIL :=
  C8_markup_byte_exact oneStore [] [] 0 (HTML_HEAD ++ "u" ++ HTML_TAIL) oneStoreAfter rfl

/-- C10: with banner 0 depleted and banner 1 still available, an
empty-filter selection with raw draw 0 lets the exhausted banner win the
global draw and surfaces none without a redraw. -/
theorem C10_depleted_can_win :
    (c10Store.get_banner_html [] [] 0).1.isSome = true ∧
    (c10Depleted.banners.getD 1 bannerOOB).can_show = true ∧
    (c10Depleted.get_banner_html [] [] 0).1 = none := by
  refine ⟨by decide, by decide, by decide⟩

theorem mem_of_lookup (m : List (Category × List Nat)) (c : Category) (l : List Nat)
    (h : List.lookup c m = some l) : (c, l) ∈ m := by
  induction m with
  | nil => simp [List.lookup] at h
  | cons kv t ih =>
    obtain ⟨k, b⟩ := kv
    rw [List.lookup_cons] at h
    rcases hck : (c == k) with _ | _
    · rw [hck] at h
      simp only at h
      exact List.mem_cons_of_mem _ (ih h)
    · rw [hck] at h
      simp only [Option.some.injEq] at h
      have : c = k := beq_iff_eq.mp hck
      rw [this, h]
      exact List.mem_cons_self _ _

/-- C6: the draw follows the specified algorithm: no candidate gives none,
a single candidate gives that candidate after projection, otherwise the
reduced draw is sent to the smallest prefix-sum position at least as large
and translated through the projection. -/
theorem C6_draw_algorithm (cw : CumulativeWeights) (rnd : Nat)
    (hs : List.Sorted (· < ·) cw.weights) :
    cw.select_uniformly rnd = select_spec cw rnd := by
  by_cases hne : cw.weights = []
  · simp [CumulativeWeights.select_uniformly, select_spec, hne]
  · have hemp : cw.weights.isEmpty = false := by
      simpa [List.isEmpty_iff] using hne
    by_cases h1 : cw.weights.length = 1
    · simp [CumulativeWeights.select_uniformly, select_spec, hemp, h1]
    · rw [select_uniformly_eq cw rnd hne hs]
      simp [select_spec, hemp, h1]

/-- Witness for C6 at a concrete two-candidate table. -/
theorem C6_witness :
    CumulativeWeights.select_uniformly
        { weights := [1, 4], idx_projection := IdxProjection.AsIs } 2 =
      select_spec { weights := [1, 4], idx_projection := IdxProjection.AsIs } 2 :=
  C6_draw_algorithm { weights := [1, 4], idx_projection := IdxProjection.AsIs } 2 (by decide)

/-- The draw over a table built from a list of positive weights picks
candidate i exactly when the reduced random value falls in the slice of the
range delimited by the neighbouring prefix sums. -/
theorem select_buildTable_iff (ws : List Nat) (hpos : ∀ w ∈ ws, 0 < w) (hne : ws ≠ [])
    (r i : Nat) (hr : r ≤ ws.sum) (hi : i < ws.length) :
    ((buildTable ws).select_uniformly r = some i ↔
      (r ≤ (cumFrom 0 ws).getD i 0 ∧ ∀ j, j < i → (cumFrom 0 ws).getD j 0 < r)) := by
  have hsorted := cumFrom_sorted ws hpos 0
  have hlen : (cumFrom 0 ws).length = ws.length := cumFrom_length 0 ws
  have hxne : cumFrom 0 ws ≠ [] := by
    intro hx
    rw [hx] at hlen
    exact hne (List.length_eq_zero.mp hlen.symm)
  rw [buildTable_eq]
  rw [select_uniformly_eq { weights := cumFrom 0 ws, idx_projection := .AsIs } r hxne hsorted]
  simp only [IdxProjection.project]
  have hW : (cumFrom 0 ws).getLast?.getD 0 = ws.sum := by
    rw [cumFrom_getLast ws 0 hne]
    omega
  simp only [hW]
  have hrr : r % (ws.sum + 1) = r := Nat.mod_eq_of_lt (by omega)
  simp only [hrr, Option.some.injEq]
  constructor
  · intro hfi
    constructor
    · have := findIdx_at (fun c => decide (r ≤ c)) 0 (cumFrom 0 ws)
        (by rw [hfi, hlen]; exact hi)
      rw [hfi] at this
      simpa using this
    · intro j hj
      have := findIdx_before (fun c => decide (r ≤ c)) 0 (cumFrom 0 ws) j (by rw [hfi]; exact hj)
      simpa using this
  · rintro ⟨h1, h2⟩
    exact findIdx_eq_of (fun c => decide (r ≤ c)) 0 (cumFrom 0 ws) i
      (by rw [hlen]; exact hi) (by simpa using h1) (fun j hj => by simpa using h2 j hj)

/-- C2 counterexample: for the two-candidate table with unit weights the
first candidate receives two of the three values of the closed range, not
exactly its weight of one. -/
theorem C2_counterexample :
    ¬ (((Finset.range (([1, 1] : List Nat).sum + 1)).filter
        (fun r => (buildTable [1, 1]).select_uniformly r = some 0)).card
      = ([1, 1] : List Nat).getD 0 0) := by decide

/-- C2 amended: over the closed range of W + 1 draw values, candidate 0
receives its weight plus one values and every later candidate exactly its
weight, so the actual distribution is proportional to the weights only up
to this off-by-one in favour of the first candidate. -/
theorem C2_amended_proportionality (ws : List Nat) (i : Nat)
    (hpos : ∀ w ∈ ws, 0 < w) (h2 : 2 ≤ ws.length) (hi : i < ws.length) :
    ((Finset.range (ws.sum + 1)).filter
      (fun r => (buildTable ws).select_uniformly r = some i)).card =
      ws.getD i 0 + (if i = 0 then 1 else 0) := by
  have hne : ws ≠ [] := by
    intro h
    rw [h] at h2
    simp at h2
  have hci : (cumFrom 0 ws).getD i 0 = (ws.take (i + 1)).sum := by
    rw [cumFrom_getD ws 0 i hi]
    omega
  have hcile : (cumFrom 0 ws).getD i 0 ≤ ws.sum := by
    rw [hci]
    exact sum_take_le ws (i + 1)
  rcases Nat.eq_zero_or_pos i with hz | hp
  · subst hz
    have hfc : (Finset.range (ws.sum + 1)).filter
        (fun r => (buildTable ws).select_uniformly r = some 0) =
      (Finset.range (ws.sum + 1)).filter (fun r => r ≤ (cumFrom 0 ws).getD 0 0) := by
      refine Finset.filter_congr ?_
      intro r hr
      have hrle : r ≤ ws.sum := by
        have := Finset.mem_range.mp hr
        omega
      rw [select_buildTable_iff ws hpos hne r 0 hrle hi]
      constructor
      · rintro ⟨h, _⟩
        exact h
      · intro h
        exact ⟨h, by omega⟩
    rw [hfc]
    have hfc2 : (Finset.range (ws.sum + 1)).filter
        (fun r => r ≤ (cumFrom 0 ws).getD 0 0) = Finset.Iic ((cumFrom 0 ws).getD 0 0) := by
      ext r
      simp only [Finset.mem_filter, Finset.mem_range, Finset.mem_Iic]
      omega
    rw [hfc2, Nat.card_Iic]
    have hv : (cumFrom 0 ws).getD 0 0 = ws.getD 0 0 := by
      rw [hci, sum_take_succ ws 0 hi]
      simp
    rw [hv]
    simp
  · have hi1 : i - 1 < ws.length := by omega
    have hlemono : ∀ j, j < i → (cumFrom 0 ws).getD j 0 ≤ (cumFrom 0 ws).getD (i - 1) 0 := by
      intro j hj
      refine sorted_getD_le (cumFrom 0 ws) (cumFrom_sorted ws hpos 0) j (i - 1) (by omega) ?_
      rw [cumFrom_length]
      omega
    have hfc : (Finset.range (ws.sum + 1)).filter
        (fun r => (buildTable ws).select_uniformly r = some i) =
      (Finset.range (ws.sum + 1)).filter
        (fun r => (cumFrom 0 ws).getD (i - 1) 0 < r ∧ r ≤ (cumFrom 0 ws).getD i 0) := by
      refine Finset.filter_congr ?_
      intro r hr
      have hrle : r ≤ ws.sum := by
        have := Finset.mem_range.mp hr
        omega
      rw [select_buildTable_iff ws hpos hne r i hrle hi]
      constructor
      · rintro ⟨h1, h2⟩
        exact ⟨h2 (i - 1) (by omega), h1⟩
      · rintro ⟨h1, h2⟩
        refine ⟨h2, ?_⟩
        intro j hj
        have := hlemono j hj
        omega
    rw [hfc]
    have hfc2 : (Finset.range (ws.sum + 1)).filter
        (fun r => (cumFrom 0 ws).getD (i - 1) 0 < r ∧ r ≤ (cumFrom 0 ws).getD i 0) =
      Finset.Ioc ((cumFrom 0 ws).getD (i - 1) 0) ((cumFrom 0 ws).getD i 0) := by
      ext r
      simp only [Finset.mem_filter, Finset.mem_range, Finset.mem_Ioc]
      omega
    rw [hfc2, Nat.card_Ioc]
    have hci1 : (cumFrom 0 ws).getD (i - 1) 0 = (ws.take i).sum := by
      rw [cumFrom_getD ws 0 (i - 1) hi1]
      have hsucc : i - 1 + 1 = i := by omega
      rw [hsucc]
      omega
    have hstep : (ws.take (i + 1)).sum = (ws.take i).sum + ws.getD i 0 := sum_take_succ ws i hi
    rw [hci, hci1, hstep]
    have hiz : i ≠ 0 := by omega
    simp [hiz]

/-- Witness for C2 at the table with weights one and one: the second
candidate receives exactly its weight of the three draw values. -/
theorem C2_witness :
    ((Finset.range (([1, 1] : List Nat).sum + 1)).filter
      (fun r => (buildTable [1, 1]).select_uniformly r = some 1)).card =
      ([1, 1] : List Nat).getD 1 0 + (if (1 : Nat) = 0 then 1 else 0) :=
  C2_amended_proportionality [1, 1] 1 (by decide) (by decide) (by decide)

/-- C7 counterexample: for the store with two banners sharing category z,
the iteration order one-zero is a possible hash set enumeration of the
surviving candidates, and the ephemeral table it produces carries the
projection list one-zero, which is not in ascending banner-position
order. -/
theorem C7_counterexample :
    IsHashOrder (zStore.candidate_stream ["z"]) [1, 0] ∧
    (zStore.get_cumulative_weights [1, 0]).projList = [1, 0] ∧
    ¬ List.Sorted (· < ·) ((zStore.get_cumulative_weights [1, 0]).projList) := by
  refine ⟨by decide, by decide, by decide⟩

/-- C7 amended: the ephemeral table is materialized in the hash set
iteration order, an arbitrary duplicate-free enumeration of the surviving
candidates; the projection list equals that enumeration, so its contents
are deterministic but its order is not guaranteed to be ascending. -/
theorem C7_amended_materialization (s : InMemoryStorage) (cats : List Category)
    (ord : List Nat) (hord : IsHashOrder (s.candidate_stream cats) ord) :
    (s.get_cumulative_weights ord).projList = ord ∧ ord.Nodup ∧
    (∀ j, j ∈ ord ↔ j ∈ s.candidate_stream cats) :=
  ⟨projList_gcw s ord,
   hord.symm.nodup (List.nodup_dedup _),
   fun _ => (hord.mem_iff).trans List.mem_dedup⟩

/-- Witness for C7 amended at the shared-category store with iteration
order one-zero. -/
theorem C7_witness :
    (zStore.get_cumulative_weights [1, 0]).projList = [1, 0] ∧
    ([1, 0] : List Nat).Nodup ∧
    (∀ j, j ∈ ([1, 0] : List Nat) ↔ j ∈ zStore.candidate_stream ["z"]) :=
  C7_amended_materialization zStore ["z"] [1, 0] (by decide)

/-- C4: a successful filtered selection returns a banner that is indexed
under one of the requested categories and could still show at filter time;
the candidate enumeration is exactly the deduplicated union of the known
category lists restricted to banners that can show, and the ephemeral
table weights the candidates by their declared budgets. -/
theorem C4_filtered_selection (s : InMemoryStorage) (cats : List Category) (ord : List Nat)
    (rnd : Nat) (html : String) (s' : InMemoryStorage)
    (hwf : WF s) (hne : cats ≠ [])
    (hord : IsHashOrder (s.candidate_stream cats) ord)
    (hres : s.get_banner_html cats ord rnd = (some html, s')) :
    (∃ i, i ∈ ord ∧
      (∃ k ∈ cats, ∃ l, List.lookup k s.index = some l ∧ i ∈ l) ∧
      (s.banners.getD i bannerOOB).can_show = true ∧
      html = HTML_HEAD ++ (s.banners.getD i bannerOOB).url ++ HTML_TAIL) ∧
    (∀ j, j ∈ ord ↔ ((∃ k ∈ cats, ∃ l, List.lookup k s.index = some l ∧ j ∈ l) ∧
      (s.banners.getD j bannerOOB).can_show = true)) ∧
    (s.get_cumulative_weights ord).weights =
      cumFrom 0 (ord.map (fun j => (s.banners.getD j bannerOOB).shows_amount)) := by
  have hmemord : ∀ j, j ∈ ord ↔ j ∈ s.candidate_stream cats :=
    fun j => (hord.mem_iff).trans List.mem_dedup
  have hmember : ∀ j, j ∈ ord ↔
      ((∃ k ∈ cats, ∃ l, List.lookup k s.index = some l ∧ j ∈ l) ∧
        (s.banners.getD j bannerOOB).can_show = true) :=
    fun j => (hmemord j).trans (mem_candidate_stream s cats j)
  refine ⟨?_, hmember, by rw [get_cumulative_weights_eq]⟩
  have hcne : cats.isEmpty = false := by
    rw [Bool.eq_false_iff]
    intro hx
    exact hne (List.isEmpty_iff.mp hx)
  have hfe : s.filter_by_categories cats = .Slice (s.candidate_stream cats) := by
    simp [InMemoryStorage.filter_by_categories, hcne]
  unfold InMemoryStorage.get_banner_html at hres
  rw [hfe] at hres
  dsimp only at hres
  obtain ⟨idx, b, hsel, hget, hcs, hhtml, _⟩ :=
    show_html_some s (s.get_cumulative_weights ord) rnd html s' hres
  rw [get_cumulative_weights_eq] at hsel
  have hordne : ord ≠ [] := by
    intro hx
    rw [hx] at hsel
    simp [CumulativeWeights.select_uniformly, cumFrom] at hsel
  · have hvalid : ∀ j ∈ ord, j < s.banners.length := by
      intro j hj
      obtain ⟨⟨k, _, l, hl, hjl⟩, _⟩ := (hmember j).mp hj
      exact hwf.2 (k, l) (mem_of_lookup s.index k l hl) j hjl
    have hpos : ∀ w ∈ ord.map (fun j => (s.banners.getD j bannerOOB).shows_amount), 0 < w := by
      intro w hw
      obtain ⟨j, hj, hwj⟩ := List.mem_map.mp hw
      have hjlen := hvalid j hj
      rw [← hwj]
      exact hwf.1 (s.banners.getD j bannerOOB) (getD_mem s.banners bannerOOB j hjlen)
    have hlenc : (cumFrom 0 (ord.map (fun j => (s.banners.getD j bannerOOB).shows_amount))).length
        = ord.length := by
      rw [cumFrom_length, List.length_map]
    have hxne : cumFrom 0 (ord.map (fun j => (s.banners.getD j bannerOOB).shows_amount)) ≠ [] := by
      intro hx
      rw [hx] at hlenc
      exact hordne (List.length_eq_zero.mp hlenc.symm)
    have hsorted := cumFrom_sorted _ hpos 0
    rw [select_uniformly_eq _ rnd hxne hsorted] at hsel
    simp only [Option.some.injEq] at hsel
    set xs := cumFrom 0 (ord.map (fun j => (s.banners.getD j bannerOOB).shows_amount)) with hxsd
    set rr := rnd % (xs.getLast?.getD 0 + 1) with hrr
    have hrle : rr ≤ xs.getLast?.getD 0 := Nat.lt_succ_iff.mp (Nat.mod_lt rnd (by omega))
    have hlastD : xs.getLast?.getD 0 = xs.getD (xs.length - 1) 0 := getLastD_eq_getD xs hxne
    have hlenpos : 0 < xs.length := List.length_pos.mpr hxne
    have hfidx : xs.findIdx (fun c => decide (rr ≤ c)) < xs.length := by
      refine findIdx_lt_length_of _ 0 xs (xs.length - 1) (by omega) ?_
      rw [← hlastD]
      simpa using hrle
    have hproj : IdxProjection.project (.Specific ord) (xs.findIdx (fun c => decide (rr ≤ c)))
        = ord.getD (xs.findIdx (fun c => decide (rr ≤ c))) 0 := rfl
    rw [hproj] at hsel
    have hidxmem : idx ∈ ord := by
      rw [← hsel]
      refine getD_mem ord 0 _ ?_
      rw [← hlenc]
      exact hfidx
    have hb : s.banners.getD idx bannerOOB = b := by
      rw [List.getD_eq_getElem?_getD, ← List.get?_eq_getElem?, hget]
      rfl
    obtain ⟨htag, halive⟩ := (hmember idx).mp hidxmem
    exact ⟨idx, hidxmem, htag, halive, by rw [hb]; exact hhtml⟩

/-- Witness for C4 at the shared-category store: with iteration order
one-zero and raw draw zero, banner one wins. -/
theorem C4_witness :
    (∃ i, i ∈ ([1, 0] : List Nat) ∧
      (∃ k ∈ ["z"], ∃ l, List.lookup k zStore.index = some l ∧ i ∈ l) ∧
      (zStore.banners.getD i bannerOOB).can_show = true ∧
      HTML_HEAD ++ "u2" ++ HTML_TAIL =
        HTML_HEAD ++ (zStore.banners.getD i bannerOOB).url ++ HTML_TAIL) ∧
    (∀ j, j ∈ ([1, 0] : List Nat) ↔
      ((∃ k ∈ ["z"], ∃ l, List.lookup k zStore.index = some l ∧ j ∈ l) ∧
        (zStore.banners.getD j bannerOOB).can_show = true)) ∧
    (zStore.get_cumulative_weights [1, 0]).weights =
      cumFrom 0 (([1, 0] : List Nat).map
        (fun j => (zStore.banners.getD j bannerOOB).shows_amount)) :=
  C4_filtered_selection zStore ["z"] [1, 0] 0 (HTML_HEAD ++ "u2" ++ HTML_TAIL) zStoreAfter
    (by decide) (by decide) (by decide) (by decide)

end Rotator
